import Mathlib

/-!
Verification of the amount-entry control
(`src/app2/src/lib/transfer/shared/components/Amount.svelte`).

Strings are modelled as `List Char`.  The JavaScript string primitives the
component uses (`startsWith`, `includes`, `split`, `padStart`, the
trailing-zero `replace`, `+` concatenation, `??` defaulting) are given
faithful list-level counterparts below; all characters involved are ASCII,
so JS UTF-16 lengths coincide with character counts.
-/

/-- JS `s.startsWith(p)` on character lists. -/
def listStartsWith : List Char → List Char → Bool
  | _, [] => true
  | [], _ :: _ => false
  | a :: as, b :: bs => a == b && listStartsWith as bs

/-- JS `s.split(c)` for a single-character separator: splits at every
occurrence of `c`, keeping empty segments (the result is never empty). -/
def jsSplit (c : Char) : List Char → List (List Char)
  | [] => [[]]
  | a :: rest =>
    if a == c then
      [] :: jsSplit c rest
    else
      match jsSplit c rest with
      | [] => [[a]]
      | h :: t => (a :: h) :: t

/-- The guard's shape regular expression (Amount.svelte line 145):
the proposed text must fully match `^\d*[.,]?\d*$` — leading digits, at
most one fractional separator (`.` or `,`), digits after it. -/
def shapeTest (l : List Char) : Bool :=
  match l.dropWhile Char.isDigit with
  | [] => true
  | c :: rest => (c == '.' || c == ',') && rest.all Char.isDigit

/-- The `onbeforeinput` keystroke guard of Amount.svelte (lines 134-159):
`value` is the field's current text, `data` the inserted fragment (`null`
for deletions), `inputType` the DOM edit kind; `true` means the edit is
allowed (the handler calls `preventDefault()` exactly when this is
`false`). -/
def onbeforeinputAllow (value : List Char) (data : Option (List Char))
    (inputType : List Char) (maxDecimals : Nat) : Bool :=
  let proposed := value ++ data.getD []
  let validShape := shapeTest proposed
  let validDecimalsDot := !(proposed.contains '.')
    || decide (((jsSplit '.' proposed).getD 1 []).length ≤ maxDecimals)
  let validDecimalsComma := !(proposed.contains ',')
    || decide (((jsSplit ',' proposed).getD 1 []).length ≤ maxDecimals)
  let isDelete := listStartsWith inputType ['d', 'e', 'l', 'e', 't', 'e']
  let validDecimals := validDecimalsComma && validDecimalsDot
  let noDuplicateLeadingZeroes := !(listStartsWith proposed ['0', '0'])
  isDelete || (validDecimals && validShape && noDuplicateLeadingZeroes)

/-- Little-endian base-10 digits, fuel-driven so that it reduces inside the
kernel; `decDigitsAux n n` agrees with `Nat.digits 10 n`. -/
def decDigitsAux : Nat → Nat → List Nat
  | 0, _ => []
  | fuel + 1, n => if n = 0 then [] else n % 10 :: decDigitsAux fuel (n / 10)

def decDigits (n : Nat) : List Nat := decDigitsAux n n

/-- Decimal string of a natural number, as produced by JS `BigInt.toString`. -/
def natToDec (n : Nat) : List Char :=
  if n = 0 then ['0'] else ((decDigits n).map Nat.digitChar).reverse

/-- Decimal string of an integer (JS `BigInt.toString`), with a leading
minus sign for negative values. -/
def intToDec (v : Int) : List Char :=
  if v < 0 then '-' :: natToDec v.natAbs else natToDec v.toNat

/-- JS `s.padStart(n, c)`. -/
def padStart (l : List Char) (n : Nat) (c : Char) : List Char :=
  List.replicate (n - l.length) c ++ l

/-- JS `fraction.replace(/(0+)$/, "")`: drop every trailing `'0'`. -/
def dropTrailingZeros (l : List Char) : List Char :=
  (l.reverse.dropWhile (fun c => c == '0')).reverse

/-- Modelled from the spec: the BaseUnitAmount → DisplayAmount conversion
of §4.2 step 2, used at Amount.svelte lines 56 and 88.  The conversion is
`formatUnits` of the `viem` dependency, whose source is not part of this
repository: write the integer in decimal, shift the decimal point left by
`decimals` places (zero-padding on the left as needed), trim trailing
fractional zeros, with no rounding; negative values keep a leading minus
sign. -/
def formatUnits (value : Int) (decimals : Nat) : List Char :=
  let display := intToDec value
  let negative := listStartsWith display ['-']
  let display1 := if negative then display.drop 1 else display
  let display2 := padStart display1 decimals '0'
  let integer := display2.take (display2.length - decimals)
  let fraction0 := display2.drop (display2.length - decimals)
  let fraction := dropTrailingZeros fraction0
  (if negative then ['-'] else [])
    ++ (if integer.isEmpty then ['0'] else integer)
    ++ (if fraction.isEmpty then [] else '.' :: fraction)

/-- Numeric value of a string of decimal digit characters (most
significant first); the empty string has value 0. -/
def decValue (l : List Char) : Nat :=
  l.foldl (fun acc c => acc * 10 + (c.toNat - 48)) 0

/-- Modelled from the spec: the DisplayAmount → BaseUnitAmount
interpretation ("the exact inverse of the base-unit interpretation used
elsewhere for this asset", §4.2 step 2); that inverse lives outside this
component's source.  The integer part (before the first `.` or `,`)
contributes `ip * 10 ^ d`, a fractional part of length `k` contributes
`fp * 10 ^ (d - k)`. -/
def parseUnits (s : List Char) (d : Nat) : Nat :=
  decValue (s.takeWhile (fun c => !(c == '.' || c == ','))) * 10 ^ d
    + decValue ((s.dropWhile (fun c => !(c == '.' || c == ','))).drop 1)
      * 10 ^ (d - ((s.dropWhile (fun c => !(c == '.' || c == ','))).drop 1).length)

/-- Models `BABY_SUB_AMOUNT = 20n * 10n ** BigInt(decimals)` (Amount.svelte line 82). -/
def babySubAmount (decimals : Nat) : Int := 20 * 10 ^ decimals

/-- The conditional of Amount.svelte lines 84-86:
`isUbbn && rawBalance > BABY_SUB_AMOUNT ? rawBalance - BABY_SUB_AMOUNT : rawBalance`,
with the reserve as an explicit argument. -/
def maxUsable (rawBalance reserve : Int) (isNativeReserved : Bool) : Int :=
  if isNativeReserved = true ∧ rawBalance > reserve then rawBalance - reserve
  else rawBalance

/-- The numeric core of `setMaxAmount` (Amount.svelte lines 76-88): the
usable balance after the fixed reserve, rendered at `decimals` fractional
digits. -/
def computeMax (rawBalance : Int) (decimals : Nat) (isNativeReserved : Bool) :
    List Char :=
  formatUnits (maxUsable rawBalance (babySubAmount decimals) isNativeReserved)
    decimals

/-- One entry of a token's `representations` array; `decimals` is optional
(`representations[0]?.decimals` can be absent). -/
structure TokenRepresentation where
  decimals : Option Nat

structure Token where
  denom : String
  representations : List TokenRepresentation

/-- The balance record held by the store; `balance` is the fetched raw
balance (the component converts the stored string with `BigInt(...)`, so
the model carries the integer value directly). -/
structure BalanceRecord where
  balance : Option Int

structure Chain where
  universal_chain_id : String

/-- The slice of `transferData` the component reads, together with the
form's `amount` field written through `updateField`. -/
structure TransferData where
  sourceChain : Option Chain
  baseToken : Option Token
  baseTokenBalance : Option BalanceRecord
  amount : List Char

/-- Models `baseToken.representations[0]?.decimals ?? 0` (lines 54 and 78). -/
def assetDecimals (tok : Token) : Nat :=
  (tok.representations.head?.bind TokenRepresentation.decimals).getD 0

/-- The guard's `maxDecimals` pipe (lines 139-143):
`Option.flatMap (x => Option.fromNullable(x.representations[0]?.decimals))`
with `Option.getOrElse(() => 0)`. -/
def guardMaxDecimals (baseToken : Option Token) : Nat :=
  (baseToken.bind fun x => x.representations.head?.bind TokenRepresentation.decimals).getD 0

/-- Models `toHex("ubbn")` (line 80). -/
def ubbnDenom : String := "0x7562626e"

/-- The guard as wired in the component: `maxDecimals` is derived from the
currently selected token. -/
def onbeforeinputHandler (baseToken : Option Token) (value : List Char)
    (data : Option (List Char)) (inputType : List Char) : Bool :=
  onbeforeinputAllow value data inputType (guardMaxDecimals baseToken)

/-- Models `displayBalance` (lines 45-60): the formatted balance once chain, token
and balance are all present, `""` otherwise. -/
def displayBalance (td : TransferData) : List Char :=
  match td.sourceChain, td.baseToken, td.baseTokenBalance with
  | some _, some baseToken, some btb =>
    match btb.balance with
    | some raw => formatUnits raw (assetDecimals baseToken)
    | none => []
  | _, _, _ => []

/-- Models `setMaxAmount` (lines 62-97): early-returns when the token, the balance
record, the balance value or the chain is missing, otherwise writes the
formatted maximum into the `amount` field.  It signals no failure: the
return type has no error case. -/
def setMaxAmount (td : TransferData) : TransferData :=
  match td.baseToken with
  | none => td
  | some baseToken =>
    match td.baseTokenBalance with
    | none => td
    | some btb =>
      match btb.balance with
      | none => td
      | some rawBalance =>
        match td.sourceChain with
        | none => td
        | some sourceChain =>
          let decimals := assetDecimals baseToken
          let isUbbn := sourceChain.universal_chain_id == "babylon.bbn-1"
            && baseToken.denom == ubbnDenom
          { td with amount := computeMax rawBalance decimals isUbbn }

/-- Spec-side notion (claims C1/C4): the number of digit characters after
the first occurrence of `c`. -/
def digitsAfterFirst (c : Char) (l : List Char) : Nat :=
  ((l.dropWhile (fun x => !(x == c))).drop 1).countP Char.isDigit

def isSepChar (c : Char) : Bool := c == '.' || c == ','

/-- Some digit occurs after the first fractional separator. -/
def hasDigitAfterSep (l : List Char) : Bool :=
  ((l.dropWhile (fun c => !(isSepChar c))).drop 1).any Char.isDigit

/-- The text ends in a fractional separator. -/
def endsWithSep (l : List Char) : Bool :=
  match l.getLast? with
  | some c => isSepChar c
  | none => false

/-- The acceptance condition exactly as claim C1 words it: accept iff the
edit is a deletion, or the proposed text fully matches `^\d*[.,]?\d*$`,
has at most `maxDecimals` digits after the first `.` if a `.` is present,
at most `maxDecimals` digits after the first `,` if a `,` is present, and
does not start with `"00"`. -/
def specAccepts (value : List Char) (data : Option (List Char))
    (inputType : List Char) (maxDecimals : Nat) : Bool :=
  let proposed := value ++ data.getD []
  listStartsWith inputType ['d', 'e', 'l', 'e', 't', 'e']
  || (shapeTest proposed
      && (!(proposed.contains '.') || decide (digitsAfterFirst '.' proposed ≤ maxDecimals))
      && (!(proposed.contains ',') || decide (digitsAfterFirst ',' proposed ≤ maxDecimals))
      && !(listStartsWith proposed ['0', '0']))

/-! ### Basic helper lemmas -/

theorem bool_eq_of_iff {a b : Bool} (h : a = true ↔ b = true) : a = b := by
  cases a <;> cases b <;> simp_all

theorem digitChar_isDigit {k : Nat} (h : k < 10) : (Nat.digitChar k).isDigit = true := by
  interval_cases k <;> decide

theorem digitChar_val {k : Nat} (h : k < 10) : (Nat.digitChar k).toNat - 48 = k := by
  interval_cases k <;> decide

theorem isDigit_beq_false {c x : Char} (hx : x.isDigit = false) (hc : c.isDigit = true) :
    (c == x) = false := by
  cases hb : c == x
  · rfl
  · rw [eq_of_beq hb, hx] at hc
    exact Bool.noConfusion hc

theorem not_mem_of_all_digits {c : Char} {a : List Char} (hc : c.isDigit = false)
    (ha : ∀ x ∈ a, x.isDigit = true) : c ∉ a := by
  intro hm
  rw [ha c hm] at hc
  exact Bool.noConfusion hc

theorem contains_eq_false_of_not_mem {l : List Char} {c : Char} (h : c ∉ l) :
    l.contains c = false := by
  cases hb : l.contains c
  · rfl
  · exact absurd (by simpa using hb) h

theorem contains_eq_true_of_mem {l : List Char} {c : Char} (h : c ∈ l) :
    l.contains c = true := by simpa using h

theorem getLast?_mem_list {l : List Char} {a : Char} (h : l.getLast? = some a) : a ∈ l := by
  obtain ⟨hne, heq⟩ := List.mem_getLast?_eq_getLast (x := a) (l := l) (Option.mem_def.mpr h)
  rw [heq]
  exact List.getLast_mem hne

theorem takeWhile_eq_self_of_all (p : Char → Bool) (l : List Char)
    (h : ∀ c ∈ l, p c = true) : l.takeWhile p = l := by
  induction l with
  | nil => rfl
  | cons c t ih =>
    rw [List.takeWhile_cons, h c (List.mem_cons_self _ _),
      ih fun x hx => h x (List.mem_cons_of_mem _ hx)]
    simp

theorem dropWhile_eq_nil_of_all (p : Char → Bool) (l : List Char)
    (h : ∀ c ∈ l, p c = true) : l.dropWhile p = [] := by
  induction l with
  | nil => rfl
  | cons c t ih =>
    rw [List.dropWhile_cons, h c (List.mem_cons_self _ _)]
    simpa using ih fun x hx => h x (List.mem_cons_of_mem _ hx)

theorem takeWhile_append_sep (p : Char → Bool) (a b : List Char) (y : Char)
    (ha : ∀ c ∈ a, p c = true) (hy : p y = false) :
    (a ++ y :: b).takeWhile p = a := by
  induction a with
  | nil => simp [List.takeWhile_cons, hy]
  | cons x t ih =>
    rw [List.cons_append, List.takeWhile_cons, ha x (List.mem_cons_self _ _)]
    simpa using ih fun c hc => ha c (List.mem_cons_of_mem _ hc)

theorem dropWhile_append_sep (p : Char → Bool) (a b : List Char) (y : Char)
    (ha : ∀ c ∈ a, p c = true) (hy : p y = false) :
    (a ++ y :: b).dropWhile p = y :: b := by
  induction a with
  | nil => simp [List.dropWhile_cons, hy]
  | cons x t ih =>
    rw [List.cons_append, List.dropWhile_cons, ha x (List.mem_cons_self _ _)]
    simpa using ih fun c hc => ha c (List.mem_cons_of_mem _ hc)

/-! ### Lemmas about `jsSplit` and `shapeTest` -/

theorem jsSplit_of_not_mem (c : Char) (l : List Char) (h : c ∉ l) :
    jsSplit c l = [l] := by
  induction l with
  | nil => rfl
  | cons a t ih =>
    have ha : (a == c) = false := by
      cases hb : a == c
      · rfl
      · cases eq_of_beq hb
        exact absurd (List.mem_cons_self _ _) h
    have ht : c ∉ t := fun hm => h (List.mem_cons_of_mem _ hm)
    rw [jsSplit, ih ht]
    simp [ha]

theorem jsSplit_append (c : Char) (a b : List Char) (h : c ∉ a) :
    jsSplit c (a ++ c :: b) = a :: jsSplit c b := by
  induction a with
  | nil => simp [jsSplit]
  | cons x t ih =>
    have hx : (x == c) = false := by
      cases hb : x == c
      · rfl
      · cases eq_of_beq hb
        exact absurd (List.mem_cons_self _ _) h
    have ht : c ∉ t := fun hm => h (List.mem_cons_of_mem _ hm)
    rw [List.cons_append, jsSplit, ih ht]
    simp [hx]

theorem jsSplit_frac (c : Char) (a b : List Char) (hca : c ∉ a) (hcb : c ∉ b) :
    (jsSplit c (a ++ c :: b)).getD 1 [] = b := by
  rw [jsSplit_append c a b hca, jsSplit_of_not_mem c b hcb]
  rfl

theorem shapeTest_split (l : List Char) (c : Char) (hc : c.isDigit = false)
    (hs : shapeTest l = true) (hm : c ∈ l) :
    ∃ a b, l = a ++ c :: b ∧ (∀ x ∈ a, x.isDigit = true) ∧ (∀ x ∈ b, x.isDigit = true) := by
  unfold shapeTest at hs
  cases ht : l.dropWhile Char.isDigit with
  | nil =>
    exfalso
    have hl : l.takeWhile Char.isDigit = l := by
      have h := List.takeWhile_append_dropWhile (p := Char.isDigit) (l := l)
      rw [ht, List.append_nil] at h
      exact h
    have := List.mem_takeWhile_imp (hl ▸ hm)
    rw [hc] at this
    exact Bool.noConfusion this
  | cons s rest =>
    rw [ht] at hs
    have hs' := Bool.and_eq_true_iff.mp hs
    have hrest : ∀ x ∈ rest, x.isDigit = true := fun x hx =>
      List.all_eq_true.mp hs'.2 x hx
    have hsplit : l = l.takeWhile Char.isDigit ++ s :: rest := by
      conv_lhs => rw [← List.takeWhile_append_dropWhile (p := Char.isDigit) (l := l)]
      rw [ht]
    have ha : ∀ x ∈ l.takeWhile Char.isDigit, x.isDigit = true :=
      fun x hx => List.mem_takeWhile_imp hx
    have hcs : c = s := by
      rw [hsplit] at hm
      rcases List.mem_append.mp hm with h1 | h2
      · exact absurd (ha c h1) (by simp [hc])
      · rcases List.mem_cons.mp h2 with h3 | h4
        · exact h3
        · exact absurd (hrest c h4) (by simp [hc])
    exact ⟨l.takeWhile Char.isDigit, rest, by rw [hcs]; exact hsplit, ha, hrest⟩

theorem shape_sepCount (l : List Char) (hs : shapeTest l = true) :
    l.countP isSepChar ≤ 1 := by
  have hdig : ∀ x : Char, x.isDigit = true → isSepChar x = false := by
    intro x hx
    unfold isSepChar
    rw [isDigit_beq_false (by decide) hx, isDigit_beq_false (by decide) hx]
    rfl
  unfold shapeTest at hs
  have hsplit := (List.takeWhile_append_dropWhile (p := Char.isDigit) (l := l)).symm
  have ha : (l.takeWhile Char.isDigit).countP isSepChar = 0 :=
    List.countP_eq_zero.mpr fun x hx => by
      simp [hdig x (List.mem_takeWhile_imp hx)]
  cases ht : l.dropWhile Char.isDigit with
  | nil =>
    rw [ht] at hsplit
    conv_lhs => rw [hsplit]
    simp [ha]
  | cons s rest =>
    rw [ht] at hs hsplit
    have hs' := Bool.and_eq_true_iff.mp hs
    have hrest : rest.countP isSepChar = 0 :=
      List.countP_eq_zero.mpr fun x hx => by
        simp [hdig x (List.all_eq_true.mp hs'.2 x hx)]
    conv_lhs => rw [hsplit]
    rw [List.countP_append, ha, List.countP_cons, hrest]
    have : isSepChar s = true := hs'.1
    simp [this]

theorem digit_not_sep {x : Char} (hx : x.isDigit = true) : isSepChar x = false := by
  unfold isSepChar
  rw [isDigit_beq_false (by decide) hx, isDigit_beq_false (by decide) hx]
  rfl

theorem digitsAfterFirst_of_not_mem (c : Char) (l : List Char) (hm : c ∉ l) :
    digitsAfterFirst c l = 0 := by
  unfold digitsAfterFirst
  rw [dropWhile_eq_nil_of_all _ _ fun x hx => ?_]
  · rfl
  · cases hb : x == c
    · rfl
    · cases eq_of_beq hb
      exact absurd hx hm

theorem shape_frac_parts (l : List Char) (c : Char) (hc : c.isDigit = false)
    (hs : shapeTest l = true) (hm : c ∈ l) :
    ((jsSplit c l).getD 1 []).length = digitsAfterFirst c l := by
  obtain ⟨a, b, hl, ha, hb⟩ := shapeTest_split l c hc hs hm
  subst hl
  rw [jsSplit_frac c a b (not_mem_of_all_digits hc ha) (not_mem_of_all_digits hc hb)]
  unfold digitsAfterFirst
  rw [dropWhile_append_sep _ a b c (fun x hx => ?_) (by simp)]
  · simp only [List.drop_one, List.tail_cons]
    exact (List.countP_eq_length.mpr hb).symm
  · have : (x == c) = false := isDigit_beq_false hc (ha x hx)
    rw [this]
    rfl

theorem frac_prop_iff (l : List Char) (c : Char) (maxD : Nat) (hc : c.isDigit = false)
    (hs : shapeTest l = true) :
    (l.contains c = false ∨ ((jsSplit c l).getD 1 []).length ≤ maxD)
      ↔ (l.contains c = false ∨ digitsAfterFirst c l ≤ maxD) := by
  cases hm : l.contains c
  · simp
  · have hmem : c ∈ l := by simpa using hm
    rw [shape_frac_parts l c hc hs hmem]

/-- Claim C1: for every edit proposal and every `maxDecimals`, the guard
accepts the edit if and only if the edit kind is a deletion, OR the
proposed text `currentText + (insertedFragment ?? "")` fully matches
`^\d*[.,]?\d*$`, has at most `maxDecimals` digits after the first `.` if a
`.` is present, at most `maxDecimals` digits after the first `,` if a `,`
is present, and does not start with `"00"`. -/
theorem guard_decides_as_spec (value : List Char) (data : Option (List Char))
    (inputType : List Char) (maxDecimals : Nat) :
    onbeforeinputAllow value data inputType maxDecimals
      = specAccepts value data inputType maxDecimals := by
  apply bool_eq_of_iff
  simp only [onbeforeinputAllow, specAccepts, Bool.or_eq_true, Bool.and_eq_true,
    Bool.not_eq_true', decide_eq_true_eq]
  constructor
  · rintro (h | ⟨⟨⟨hcomma, hdot⟩, hshape⟩, hzero⟩)
    · exact Or.inl h
    · exact Or.inr ⟨⟨⟨hshape,
        (frac_prop_iff _ '.' maxDecimals (by decide) hshape).mp hdot⟩,
        (frac_prop_iff _ ',' maxDecimals (by decide) hshape).mp hcomma⟩, hzero⟩
  · rintro (h | ⟨⟨⟨hshape, hdot⟩, hcomma⟩, hzero⟩)
    · exact Or.inl h
    · exact Or.inr ⟨⟨⟨(frac_prop_iff _ ',' maxDecimals (by decide) hshape).mpr hcomma,
        (frac_prop_iff _ '.' maxDecimals (by decide) hshape).mpr hdot⟩, hshape⟩, hzero⟩

theorem not_mem_of_contains_eq_false {l : List Char} {c : Char}
    (h : l.contains c = false) : c ∉ l := by
  intro hm
  rw [contains_eq_true_of_mem hm] at h
  exact Bool.noConfusion h

/-- Claim C5: every edit proposal whose edit kind is a deletion (the DOM
`inputType` starts with `"delete"`) is accepted unconditionally, whatever
the resulting text and whatever `maxDecimals`. -/
theorem deletion_always_accepted (value : List Char) (data : Option (List Char))
    (inputType : List Char) (maxDecimals : Nat)
    (h : listStartsWith inputType ['d', 'e', 'l', 'e', 't', 'e'] = true) :
    onbeforeinputAllow value data inputType maxDecimals = true := by
  simp only [onbeforeinputAllow, h, Bool.true_or]

theorem deletion_always_accepted_witness :
    listStartsWith "deleteContentBackward".data ['d', 'e', 'l', 'e', 't', 'e'] = true
      ∧ onbeforeinputAllow "0.123x".data none "deleteContentBackward".data 0 = true :=
  ⟨by decide, deletion_always_accepted "0.123x".data none "deleteContentBackward".data 0
    (by decide)⟩

/-- Claim C4 is false as stated: the deletion proposal on current text
`"00"` is accepted by the guard (deletions are accepted unconditionally),
yet the proposed text starts with `"00"`, violating the claimed invariant
over all accepted edit proposals. -/
theorem accepted_text_invariant_counterexample :
    onbeforeinputAllow "00".data none "deleteContentBackward".data 5 = true
      ∧ listStartsWith ("00".data ++ (none : Option (List Char)).getD []) ['0', '0'] = true := by
  exact ⟨by decide, by decide⟩

/-- Claim C4 (amended): every DisplayAmount accepted by the guard through a
non-deletion edit matches `^\d*[.,]?\d*$`, contains at most one fractional
separator, has at most `maxDecimals` digits after whichever separator is
present, and does not start with `"00"`.  (The original claim quantified
over all accepted proposals; deletion edits are accepted unconditionally
and can violate every rule, so the invariant holds only for non-deletion
edits.) -/
theorem accepted_insertion_invariant (value : List Char) (data : Option (List Char))
    (inputType : List Char) (maxDecimals : Nat)
    (hdel : listStartsWith inputType ['d', 'e', 'l', 'e', 't', 'e'] = false)
    (hacc : onbeforeinputAllow value data inputType maxDecimals = true) :
    shapeTest (value ++ data.getD []) = true
      ∧ (value ++ data.getD []).countP isSepChar ≤ 1
      ∧ digitsAfterFirst '.' (value ++ data.getD []) ≤ maxDecimals
      ∧ digitsAfterFirst ',' (value ++ data.getD []) ≤ maxDecimals
      ∧ listStartsWith (value ++ data.getD []) ['0', '0'] = false := by
  simp only [onbeforeinputAllow, Bool.or_eq_true, Bool.and_eq_true, Bool.not_eq_true',
    decide_eq_true_eq] at hacc
  rcases hacc with h | ⟨⟨⟨hcomma, hdot⟩, hshape⟩, hzero⟩
  · rw [hdel] at h
    exact Bool.noConfusion h
  · refine ⟨hshape, shape_sepCount _ hshape, ?_, ?_, hzero⟩
    · rcases (frac_prop_iff _ '.' maxDecimals (by decide) hshape).mp hdot with hnc | hle
      · rw [digitsAfterFirst_of_not_mem '.' _ (not_mem_of_contains_eq_false hnc)]
        exact Nat.zero_le _
      · exact hle
    · rcases (frac_prop_iff _ ',' maxDecimals (by decide) hshape).mp hcomma with hnc | hle
      · rw [digitsAfterFirst_of_not_mem ',' _ (not_mem_of_contains_eq_false hnc)]
        exact Nat.zero_le _
      · exact hle

theorem accepted_insertion_invariant_witness :
    shapeTest ("1".data ++ (some ".2".data).getD []) = true
      ∧ ("1".data ++ (some ".2".data).getD []).countP isSepChar ≤ 1
      ∧ digitsAfterFirst '.' ("1".data ++ (some ".2".data).getD []) ≤ 2
      ∧ digitsAfterFirst ',' ("1".data ++ (some ".2".data).getD []) ≤ 2
      ∧ listStartsWith ("1".data ++ (some ".2".data).getD []) ['0', '0'] = false :=
  accepted_insertion_invariant "1".data (some ".2".data) "insertText".data 2
    (by decide) (by decide)

/-- Claim C2: `computeMax` uses `usable = rawBalance - reserve` exactly when
the asset is the native reserved asset AND `rawBalance > reserve`;
otherwise `usable = rawBalance`; and for a non-negative balance the usable
amount is never negative. -/
theorem maxUsable_spec (rawBalance reserve : Int) (isNativeReserved : Bool)
    (h0 : 0 ≤ rawBalance) :
    ((isNativeReserved = true ∧ rawBalance > reserve) →
        maxUsable rawBalance reserve isNativeReserved = rawBalance - reserve)
      ∧ (¬(isNativeReserved = true ∧ rawBalance > reserve) →
        maxUsable rawBalance reserve isNativeReserved = rawBalance)
      ∧ 0 ≤ maxUsable rawBalance reserve isNativeReserved := by
  unfold maxUsable
  by_cases h : isNativeReserved = true ∧ rawBalance > reserve
  · rw [if_pos h]
    have h2 := h.2
    exact ⟨fun _ => rfl, fun hn => absurd h hn, by omega⟩
  · rw [if_neg h]
    exact ⟨fun hc => absurd hc h, fun _ => rfl, h0⟩

theorem maxUsable_spec_witness :
    maxUsable 25 20 true = 25 - 20 ∧ maxUsable 10 20 true = 10
      ∧ 0 ≤ maxUsable 25 20 true :=
  ⟨(maxUsable_spec 25 20 true (by decide)).1 ⟨rfl, by decide⟩,
   (maxUsable_spec 10 20 true (by decide)).2.1 (by decide),
   (maxUsable_spec 25 20 true (by decide)).2.2⟩

/-- Claim C8: when any prerequisite of the max-amount action is missing
(no token, no balance record, unresolved balance, or no chain),
`setMaxAmount` returns the state unchanged — the `amount` field and all
other fields are untouched, and no failure is signalled (the function has
no error outcome). -/
theorem setMaxAmount_noop_of_missing (td : TransferData)
    (h : td.baseToken = none ∨ td.baseTokenBalance.bind BalanceRecord.balance = none
      ∨ td.sourceChain = none) :
    setMaxAmount td = td := by
  obtain ⟨sc, bt, bb, amt⟩ := td
  cases bt with
  | none => rfl
  | some baseToken =>
    cases bb with
    | none => rfl
    | some btb =>
      cases hb : btb.balance with
      | none => simp [setMaxAmount, hb]
      | some v =>
        cases sc with
        | none => simp [setMaxAmount, hb]
        | some chain =>
          exfalso
          rcases h with h | h | h
          · exact Option.noConfusion h
          · simp [hb] at h
          · exact Option.noConfusion h

theorem setMaxAmount_noop_witness :
    setMaxAmount ⟨none, none, none, "7".data⟩ = ⟨none, none, none, "7".data⟩ :=
  setMaxAmount_noop_of_missing _ (Or.inl rfl)

theorem dropWhile_head_false {p : Char → Bool} {l : List Char} {x : Char} {xs : List Char}
    (h : l.dropWhile p = x :: xs) : p x = false := by
  induction l with
  | nil => exact absurd h (by simp)
  | cons a t ih =>
    rw [List.dropWhile_cons] at h
    cases ha : p a with
    | true =>
      rw [ha] at h
      exact ih (by simpa using h)
    | false =>
      rw [ha] at h
      simp only [Bool.false_eq_true, if_false] at h
      rw [← (List.cons.injEq a t x xs).mp h |>.1]
      exact ha

theorem guard_reject_digit_after_sep (value : List Char) (data : Option (List Char))
    (inputType : List Char)
    (hdel : listStartsWith inputType ['d', 'e', 'l', 'e', 't', 'e'] = false)
    (hdig : hasDigitAfterSep (value ++ data.getD []) = true) :
    onbeforeinputAllow value data inputType 0 = false := by
  cases hA : onbeforeinputAllow value data inputType 0 with
  | false => rfl
  | true =>
    exfalso
    simp only [onbeforeinputAllow, Bool.or_eq_true, Bool.and_eq_true, Bool.not_eq_true',
      decide_eq_true_eq] at hA
    rcases hA with h | ⟨⟨⟨hcomma, hdot⟩, hshape⟩, _⟩
    · rw [hdel] at h
      exact Bool.noConfusion h
    · unfold hasDigitAfterSep at hdig
      cases hd : (value ++ data.getD []).dropWhile (fun c => !(isSepChar c)) with
      | nil =>
        rw [hd] at hdig
        simp at hdig
      | cons s rest =>
        rw [hd] at hdig
        simp only [List.drop_one, List.tail_cons] at hdig
        have hsep : isSepChar s = true := by
          have h1 := dropWhile_head_false hd
          simpa using h1
        have hor : s = '.' ∨ s = ',' := by simpa [isSepChar] using hsep
        have hsdig : s.isDigit = false := by
          rcases hor with h1 | h1 <;> (subst h1; decide)
        have hmem : s ∈ value ++ data.getD [] := by
          have hsplit := List.takeWhile_append_dropWhile
            (p := fun c => !(isSepChar c)) (l := value ++ data.getD [])
          rw [hd] at hsplit
          rw [← hsplit]
          exact List.mem_append_right _ (List.mem_cons_self _ _)
        obtain ⟨a, b, hl, ha, hb⟩ := shapeTest_split _ s hsdig hshape hmem
        have hd2 : (value ++ data.getD []).dropWhile (fun c => !(isSepChar c)) = s :: b := by
          rw [hl]
          refine dropWhile_append_sep _ a b s (fun x hx => ?_) ?_
          · rw [digit_not_sep (ha x hx)]
            rfl
          · rw [hsep]
            rfl
        have hbrest : rest = b := by
          have h2 := hd.symm.trans hd2
          exact ((List.cons.injEq s rest s b).mp h2).2
        have hbne : b ≠ [] := by
          intro hbe
          rw [hbrest, hbe] at hdig
          simp at hdig
        have hlen : 1 ≤ b.length := by
          cases b with
          | nil => exact absurd rfl hbne
          | cons c t => simp
        rcases hor with h1 | h1
        · subst h1
          rcases hdot with hnc | hle
          · exact not_mem_of_contains_eq_false hnc hmem
          · rw [hl, jsSplit_frac _ a b (not_mem_of_all_digits hsdig ha)
              (not_mem_of_all_digits hsdig hb)] at hle
            omega
        · subst h1
          rcases hcomma with hnc | hle
          · exact not_mem_of_contains_eq_false hnc hmem
          · rw [hl, jsSplit_frac _ a b (not_mem_of_all_digits hsdig ha)
              (not_mem_of_all_digits hsdig hb)] at hle
            omega

theorem guard_accepts_bare_sep (value : List Char) (data : Option (List Char))
    (inputType : List Char) (maxDecimals : Nat)
    (hs : shapeTest (value ++ data.getD []) = true)
    (hz : listStartsWith (value ++ data.getD []) ['0', '0'] = false)
    (he : endsWithSep (value ++ data.getD []) = true) :
    onbeforeinputAllow value data inputType maxDecimals = true := by
  cases hgl : (value ++ data.getD []).getLast? with
  | none =>
    unfold endsWithSep at he
    rw [hgl] at he
    exact Bool.noConfusion he
  | some s =>
    unfold endsWithSep at he
    rw [hgl] at he
    have hor : s = '.' ∨ s = ',' := by simpa [isSepChar] using he
    have hsdig : s.isDigit = false := by
      rcases hor with h1 | h1 <;> (subst h1; decide)
    obtain ⟨a, b, hl, ha, hb⟩ :=
      shapeTest_split _ s hsdig hs (getLast?_mem_list hgl)
    have hb0 : b = [] := by
      cases b with
      | nil => rfl
      | cons c b' =>
        exfalso
        rw [hl, List.getLast?_append_of_ne_nil a (by simp),
          List.getLast?_cons_cons] at hgl
        have hsb : s ∈ c :: b' := getLast?_mem_list hgl
        rw [hb s hsb] at hsdig
        exact Bool.noConfusion hsdig
    subst hb0
    simp only [onbeforeinputAllow, Bool.or_eq_true, Bool.and_eq_true, Bool.not_eq_true',
      decide_eq_true_eq]
    refine Or.inr ⟨⟨⟨?_, ?_⟩, hs⟩, hz⟩
    · -- comma check
      rcases hor with h1 | h1
      · subst h1
        refine Or.inl (contains_eq_false_of_not_mem ?_)
        rw [hl]
        intro hm
        rcases List.mem_append.mp hm with h2 | h2
        · have h3 := ha ',' h2
          rw [(by decide : (',' : Char).isDigit = false)] at h3
          exact Bool.noConfusion h3
        · simp at h2
      · subst h1
        refine Or.inr ?_
        rw [hl, jsSplit_frac _ a [] (not_mem_of_all_digits hsdig ha) (by simp)]
        simp
    · -- dot check
      rcases hor with h1 | h1
      · subst h1
        refine Or.inr ?_
        rw [hl, jsSplit_frac _ a [] (not_mem_of_all_digits hsdig ha) (by simp)]
        simp
      · subst h1
        refine Or.inl (contains_eq_false_of_not_mem ?_)
        rw [hl]
        intro hm
        rcases List.mem_append.mp hm with h2 | h2
        · have := ha '.' h2
          rw [(by decide : ('.' : Char).isDigit = false)] at this
          exact Bool.noConfusion this
        · simp at h2

/-- Claim C9 counterexample: the insertion proposal `currentText="00"`,
`insertedFragment="."` with `maxDecimals = 0` produces the text `"00."`,
which ends in a bare separator with zero fractional digits, yet the guard
rejects it (the leading-`"00"` rule fails) — so a bare trailing separator
is not always accepted as the claim states. -/
theorem guard_bare_sep_counterexample :
    endsWithSep ("00".data ++ (some ".".data).getD []) = true
      ∧ hasDigitAfterSep ("00".data ++ (some ".".data).getD []) = false
      ∧ onbeforeinputAllow "00".data (some ".".data) "insertText".data 0 = false :=
  ⟨by decide, by decide, by decide⟩

/-- Claim C9 (amended): with `maxDecimals = 0` the guard rejects any
insertion whose proposed text has one or more digits after a fractional
separator; a proposed text that passes the shape and leading-zero rules
and ends in a bare separator (zero fractional digits) is accepted for any
`maxDecimals`; and in particular the proposal `currentText="1"`,
`insertedFragment="."`, `editKind="insert"` is accepted for
`maxDecimals=2`.  (The original claim's acceptance clause needs the
shape/leading-zero qualification: the otherwise-invalid proposed text
`"00."` ends in a bare separator yet is rejected.) -/
theorem guard_zero_decimals_behaviour :
    (∀ value data inputType,
        listStartsWith inputType ['d', 'e', 'l', 'e', 't', 'e'] = false →
        hasDigitAfterSep (value ++ Option.getD data []) = true →
        onbeforeinputAllow value data inputType 0 = false)
      ∧ (∀ value data inputType maxDecimals,
        shapeTest (value ++ Option.getD data []) = true →
        listStartsWith (value ++ Option.getD data []) ['0', '0'] = false →
        endsWithSep (value ++ Option.getD data []) = true →
        onbeforeinputAllow value data inputType maxDecimals = true)
      ∧ onbeforeinputAllow "1".data (some ".".data) "insertText".data 2 = true :=
  ⟨guard_reject_digit_after_sep, guard_accepts_bare_sep, by decide⟩

theorem guard_zero_decimals_behaviour_witness :
    onbeforeinputAllow "1".data (some ".2".data) "insertText".data 0 = false
      ∧ onbeforeinputAllow "1".data (some ".".data) "insertText".data 0 = true :=
  ⟨guard_zero_decimals_behaviour.1 "1".data (some ".2".data) "insertText".data
      (by decide) (by decide),
   guard_zero_decimals_behaviour.2.1 "1".data (some ".".data) "insertText".data 0
      (by decide) (by decide) (by decide)⟩

/-! ### Decimal representation lemmas -/

theorem decDigitsAux_eq (fuel n : Nat) (h : n ≤ fuel) :
    decDigitsAux fuel n = Nat.digits 10 n := by
  induction fuel generalizing n with
  | zero =>
    have hn : n = 0 := Nat.le_zero.mp h
    subst hn
    simp [decDigitsAux]
  | succ fuel ih =>
    by_cases hn : n = 0
    · subst hn
      simp [decDigitsAux]
    · rw [decDigitsAux, if_neg hn,
        ih (n / 10) (by
          have := Nat.div_lt_self (Nat.pos_of_ne_zero hn) (by norm_num : 1 < 10)
          omega),
        ← Nat.digits_def' (by norm_num : 1 < 10) (Nat.pos_of_ne_zero hn)]

theorem decDigits_eq (n : Nat) : decDigits n = Nat.digits 10 n :=
  decDigitsAux_eq n n (Nat.le_refl n)

theorem natToDec_all_isDigit (n : Nat) : ∀ c ∈ natToDec n, c.isDigit = true := by
  intro c hc
  unfold natToDec at hc
  by_cases hn : n = 0
  · rw [if_pos hn] at hc
    simp at hc
    subst hc
    decide
  · rw [if_neg hn, decDigits_eq] at hc
    rw [List.mem_reverse] at hc
    obtain ⟨k, hk, hkc⟩ := List.mem_map.mp hc
    subst hkc
    exact digitChar_isDigit (Nat.digits_lt_base (by norm_num) hk)

theorem natToDec_ne_nil (n : Nat) : natToDec n ≠ [] := by
  unfold natToDec
  by_cases hn : n = 0
  · rw [if_pos hn]
    simp
  · rw [if_neg hn, decDigits_eq]
    simp only [ne_eq, List.reverse_eq_nil_iff, List.map_eq_nil_iff]
    exact Nat.digits_ne_nil_iff_ne_zero.mpr hn

theorem decValue_step (l : List Char) (acc : Nat) :
    l.foldl (fun a c => a * 10 + (c.toNat - 48)) acc
      = acc * 10 ^ l.length + l.foldl (fun a c => a * 10 + (c.toNat - 48)) 0 := by
  induction l generalizing acc with
  | nil => simp
  | cons c t ih =>
    simp only [List.foldl_cons, List.length_cons]
    rw [ih (acc * 10 + (c.toNat - 48)), ih (0 * 10 + (c.toNat - 48))]
    ring

theorem decValue_append (a b : List Char) :
    decValue (a ++ b) = decValue a * 10 ^ b.length + decValue b := by
  unfold decValue
  rw [List.foldl_append]
  exact decValue_step b _

theorem decValue_cons (c : Char) (l : List Char) :
    decValue (c :: l) = (c.toNat - 48) * 10 ^ l.length + decValue l := by
  have h : (c :: l) = [c] ++ l := rfl
  rw [h, decValue_append]
  have h2 : decValue [c] = c.toNat - 48 := by
    unfold decValue
    simp
  rw [h2]

theorem decValue_zeros (k : Nat) : decValue (List.replicate k '0') = 0 := by
  induction k with
  | zero => rfl
  | succ k ih =>
    rw [List.replicate_succ, decValue_cons, ih]
    simp

theorem decValue_rev_map (ds : List Nat) (h : ∀ d ∈ ds, d < 10) :
    decValue ((ds.map Nat.digitChar).reverse) = Nat.ofDigits 10 ds := by
  induction ds with
  | nil => rfl
  | cons d t ih =>
    simp only [List.map_cons, List.reverse_cons]
    rw [decValue_append, ih fun x hx => h x (List.mem_cons_of_mem _ hx),
      Nat.ofDigits_cons]
    have hd : d < 10 := h d (List.mem_cons_self _ _)
    have hnil : decValue [] = 0 := rfl
    have hv : decValue [Nat.digitChar d] = d := by
      rw [(rfl : [Nat.digitChar d] = Nat.digitChar d :: []), decValue_cons, hnil]
      simp [digitChar_val hd]
    rw [hv]
    simp only [List.length_cons, List.length_nil, pow_succ, pow_zero]
    ring

theorem decValue_natToDec (n : Nat) : decValue (natToDec n) = n := by
  unfold natToDec
  by_cases hn : n = 0
  · rw [if_pos hn, hn]
    decide
  · rw [if_neg hn, decDigits_eq,
      decValue_rev_map _ fun x hx => Nat.digits_lt_base (by norm_num) hx]
    exact Nat.ofDigits_digits 10 n

theorem dropTrailingZeros_decomp (l : List Char) :
    ∃ k, l = dropTrailingZeros l ++ List.replicate k '0'
      ∧ l.length = (dropTrailingZeros l).length + k := by
  have hsplit : l.reverse.takeWhile (fun c => c == '0')
      ++ l.reverse.dropWhile (fun c => c == '0') = l.reverse :=
    List.takeWhile_append_dropWhile _ _
  have h3 : l = (l.reverse.dropWhile (fun c => c == '0')).reverse
      ++ (l.reverse.takeWhile (fun c => c == '0')).reverse := by
    have h := congrArg List.reverse hsplit
    rw [List.reverse_append, List.reverse_reverse] at h
    exact h.symm
  have h4 : (l.reverse.takeWhile (fun c => c == '0')).reverse
      = List.replicate (l.reverse.takeWhile (fun c => c == '0')).reverse.length '0' := by
    apply List.eq_replicate_of_mem
    intro b hb
    have h5 := List.mem_takeWhile_imp (List.mem_reverse.mp hb)
    exact eq_of_beq h5
  have heq : l = dropTrailingZeros l
      ++ List.replicate (l.reverse.takeWhile (fun c => c == '0')).reverse.length '0' := by
    conv_lhs => rw [h3]
    unfold dropTrailingZeros
    rw [← h4]
  refine ⟨(l.reverse.takeWhile (fun c => c == '0')).reverse.length, heq, ?_⟩
  conv_lhs => rw [heq]
  rw [List.length_append, List.length_replicate]

theorem dropTrailingZeros_replicate (k : Nat) :
    dropTrailingZeros (List.replicate k '0') = [] := by
  unfold dropTrailingZeros
  rw [List.reverse_replicate, dropWhile_eq_nil_of_all _ _ fun c hc => ?_]
  · rfl
  · rw [List.eq_of_mem_replicate hc]
    rfl

theorem padStart_decValue (l : List Char) (n : Nat) :
    decValue (padStart l n '0') = decValue l := by
  unfold padStart
  rw [decValue_append, decValue_zeros]
  simp

theorem padStart_length (l : List Char) (n : Nat) (c : Char) :
    (padStart l n c).length = max n l.length := by
  unfold padStart
  rw [List.length_append, List.length_replicate]
  omega

theorem padStart_all_isDigit (l : List Char) (n : Nat)
    (h : ∀ c ∈ l, c.isDigit = true) : ∀ c ∈ padStart l n '0', c.isDigit = true := by
  intro c hc
  unfold padStart at hc
  rcases List.mem_append.mp hc with h1 | h2
  · rw [List.eq_of_mem_replicate h1]
    decide
  · exact h c h2

theorem digit_parse_pred {c : Char} (hc : c.isDigit = true) :
    (!(c == '.' || c == ',')) = true := by
  rw [isDigit_beq_false (by decide) hc, isDigit_beq_false (by decide) hc]
  rfl

theorem parseUnits_all_digits (s : List Char) (d : Nat)
    (h : ∀ c ∈ s, c.isDigit = true) :
    parseUnits s d = decValue s * 10 ^ d := by
  unfold parseUnits
  rw [takeWhile_eq_self_of_all _ s fun c hc => digit_parse_pred (h c hc),
    dropWhile_eq_nil_of_all _ s fun c hc => digit_parse_pred (h c hc)]
  simp [decValue]

theorem parseUnits_split (ip fp : List Char) (d : Nat)
    (hip : ∀ c ∈ ip, c.isDigit = true) :
    parseUnits (ip ++ '.' :: fp) d
      = decValue ip * 10 ^ d + decValue fp * 10 ^ (d - fp.length) := by
  unfold parseUnits
  rw [takeWhile_append_sep _ ip fp '.' (fun c hc => digit_parse_pred (hip c hc)) (by decide),
    dropWhile_append_sep _ ip fp '.' (fun c hc => digit_parse_pred (hip c hc)) (by decide)]
  simp only [List.drop_one, List.tail_cons]

theorem intToDec_ofNat (u : Nat) : intToDec (Int.ofNat u) = natToDec u := by
  unfold intToDec
  have h1 : ¬Int.ofNat u < 0 := by simp
  rw [if_neg h1]
  rfl

theorem startsWithDash_false (l : List Char) (h : ∀ c ∈ l, c.isDigit = true) :
    listStartsWith l ['-'] = false := by
  cases l with
  | nil => rfl
  | cons c t =>
    have hc : (c == '-') = false :=
      isDigit_beq_false (by decide) (h c (List.mem_cons_self _ _))
    simp [listStartsWith, hc]

theorem parse_format_core (I F0 : List Char) (d : Nat)
    (hidig : ∀ c ∈ I, c.isDigit = true) (hf0dig : ∀ c ∈ F0, c.isDigit = true)
    (hflen : F0.length = d) :
    parseUnits ((if I.isEmpty then ['0'] else I)
        ++ (if (dropTrailingZeros F0).isEmpty then []
            else '.' :: dropTrailingZeros F0)) d
      = decValue I * 10 ^ d + decValue F0 := by
  obtain ⟨k, hf0, hklen⟩ := dropTrailingZeros_decomp F0
  have hfdig : ∀ c ∈ dropTrailingZeros F0, c.isDigit = true := fun c hc =>
    hf0dig c (by rw [hf0]; exact List.mem_append_left _ hc)
  by_cases hF : dropTrailingZeros F0 = []
  · have hf0z : decValue F0 = 0 := by
      conv_lhs => rw [hf0, hF]
      simp [decValue_zeros]
    rw [hF]
    simp only [List.isEmpty_nil, if_true, List.append_nil]
    by_cases hI : I = []
    · rw [hI]
      simp only [List.isEmpty_nil, if_true]
      rw [parseUnits_all_digits ['0'] d (by intro c hc; simp at hc; subst hc; decide)]
      have h0 : decValue ['0'] = 0 := by decide
      have h1 : decValue ([] : List Char) = 0 := rfl
      rw [h0, h1, hf0z]
      ring
    · have hIe : I.isEmpty = false := by
        cases hx : I.isEmpty
        · rfl
        · exact absurd (List.isEmpty_iff.mp hx) hI
      rw [hIe]
      simp only [Bool.false_eq_true, if_false]
      rw [parseUnits_all_digits I d hidig, hf0z]
      ring
  · have hFe : (dropTrailingZeros F0).isEmpty = false := by
      cases hx : (dropTrailingZeros F0).isEmpty
      · rfl
      · exact absurd (List.isEmpty_iff.mp hx) hF
    have hfval : decValue F0 = decValue (dropTrailingZeros F0) * 10 ^ k := by
      conv_lhs => rw [hf0]
      rw [decValue_append, decValue_zeros, List.length_replicate]
      ring
    have hk : k = d - (dropTrailingZeros F0).length := by omega
    rw [hFe]
    simp only [Bool.false_eq_true, if_false]
    by_cases hI : I = []
    · rw [hI]
      simp only [List.isEmpty_nil, if_true]
      rw [parseUnits_split ['0'] (dropTrailingZeros F0) d
        (by intro c hc; simp at hc; subst hc; decide)]
      have h0 : decValue ['0'] = 0 := by decide
      have h1 : decValue ([] : List Char) = 0 := rfl
      rw [h0, h1, hfval, ← hk]
    · have hIe : I.isEmpty = false := by
        cases hx : I.isEmpty
        · rfl
        · exact absurd (List.isEmpty_iff.mp hx) hI
      rw [hIe]
      simp only [Bool.false_eq_true, if_false]
      rw [parseUnits_split I (dropTrailingZeros F0) d hidig, hfval, ← hk]

theorem parse_format_aux (u d : Nat) :
    parseUnits (formatUnits (Int.ofNat u) d) d = u := by
  have hDdig := natToDec_all_isDigit u
  have hneg : listStartsWith (natToDec u) ['-'] = false := startsWithDash_false _ hDdig
  have hP : d ≤ (padStart (natToDec u) d '0').length := by
    rw [padStart_length]
    exact le_max_left _ _
  have hfu : formatUnits (Int.ofNat u) d
      = (if ((padStart (natToDec u) d '0').take
            ((padStart (natToDec u) d '0').length - d)).isEmpty
          then ['0']
          else (padStart (natToDec u) d '0').take
            ((padStart (natToDec u) d '0').length - d))
        ++ (if (dropTrailingZeros ((padStart (natToDec u) d '0').drop
              ((padStart (natToDec u) d '0').length - d))).isEmpty
            then []
            else '.' :: dropTrailingZeros ((padStart (natToDec u) d '0').drop
              ((padStart (natToDec u) d '0').length - d))) := by
    simp only [formatUnits, intToDec_ofNat, hneg, Bool.false_eq_true, if_false,
      List.nil_append]
  rw [hfu, parse_format_core _ _ d
      (fun c hc => padStart_all_isDigit _ _ hDdig c (List.take_subset _ _ hc))
      (fun c hc => padStart_all_isDigit _ _ hDdig c (List.drop_subset _ _ hc))
      (by rw [List.length_drop]; omega)]
  have hval : decValue (padStart (natToDec u) d '0') = u := by
    rw [padStart_decValue, decValue_natToDec]
  have hflen : ((padStart (natToDec u) d '0').drop
      ((padStart (natToDec u) d '0').length - d)).length = d := by
    rw [List.length_drop]
    omega
  have hcomb : decValue (List.take ((padStart (natToDec u) d '0').length - d)
        (padStart (natToDec u) d '0')) * 10 ^ d
      + decValue (List.drop ((padStart (natToDec u) d '0').length - d)
        (padStart (natToDec u) d '0'))
      = decValue (padStart (natToDec u) d '0') := by
    conv_rhs => rw [← List.take_append_drop
      ((padStart (natToDec u) d '0').length - d) (padStart (natToDec u) d '0')]
    rw [decValue_append, hflen]
  rw [hcomb, hval]

/-- Claim C6: the base-unit → DisplayAmount conversion used by the
max-amount computation and the balance display is precision-preserving:
for every non-negative integer base-unit amount `u` and precision `d`,
parsing the produced decimal string back to base units at the same
precision reproduces `u` exactly, with no rounding. -/
theorem format_precision_preserving (u d : Nat) :
    parseUnits (formatUnits (Int.ofNat u) d) d = u :=
  parse_format_aux u d

theorem maxUsable_nonneg (rawBalance reserve : Int) (isNativeReserved : Bool)
    (h0 : 0 ≤ rawBalance) : 0 ≤ maxUsable rawBalance reserve isNativeReserved := by
  unfold maxUsable
  by_cases h : isNativeReserved = true ∧ rawBalance > reserve
  · rw [if_pos h]
    have := h.2
    omega
  · rw [if_neg h]
    exact h0

theorem digits_five_mul (d : Nat) :
    Nat.digits 10 (5 * 10 ^ d) = List.replicate d 0 ++ [5] := by
  induction d with
  | zero =>
    rw [pow_zero, mul_one,
      Nat.digits_def' (by norm_num : (1:Nat) < 10) (by norm_num)]
    simp
  | succ d ih =>
    have h1 : 5 * 10 ^ (d + 1) = 5 * 10 ^ d * 10 := by ring
    rw [h1, Nat.digits_def' (by norm_num : (1:Nat) < 10) (by positivity),
      Nat.mul_mod_left, (by omega : 5 * 10 ^ d * 10 / 10 = 5 * 10 ^ d), ih,
      List.replicate_succ]
    rfl

theorem natToDec_five_mul (d : Nat) :
    natToDec (5 * 10 ^ d) = '5' :: List.replicate d '0' := by
  unfold natToDec
  have hpos : 0 < 5 * 10 ^ d := by positivity
  rw [if_neg hpos.ne', decDigits_eq, digits_five_mul, List.map_append,
    List.map_replicate, List.reverse_append, List.reverse_replicate]
  simp
  exact ⟨rfl, Or.inr rfl⟩

theorem formatUnits_five_pow (d : Nat) :
    formatUnits (Int.ofNat (5 * 10 ^ d)) d = ['5'] := by
  have hb5 : ('5' == '-') = false := by decide
  have hneg : listStartsWith ('5' :: List.replicate d '0') ['-'] = false := by
    simp [listStartsWith, hb5]
  simp only [formatUnits, intToDec_ofNat, natToDec_five_mul, hneg,
    Bool.false_eq_true, if_false, List.nil_append]
  have hlen : ('5' :: List.replicate d '0').length = d + 1 := by simp
  have hpad : padStart ('5' :: List.replicate d '0') d '0'
      = '5' :: List.replicate d '0' := by
    unfold padStart
    rw [hlen, (by omega : d - (d + 1) = 0)]
    rfl
  rw [hpad, hlen, (by omega : d + 1 - d = 1)]
  simp [dropTrailingZeros_replicate]

/-- Claim C7: for every precision `d`, the max computation with balance
`25·10^d`, `decimals = d` and the native-reserve flag set (reserve
`20·10^d`) returns exactly the string `"5"` — the reserve is subtracted
exactly and trailing fractional zeros are trimmed. -/
theorem computeMax_exact_reserve (d : Nat) :
    computeMax (25 * 10 ^ d) d true = "5".data := by
  unfold computeMax babySubAmount maxUsable
  have hpow : (0:Int) < 10 ^ d := by positivity
  have hgt : (25 * 10 ^ d : Int) > 20 * 10 ^ d := by nlinarith
  rw [if_pos ⟨rfl, hgt⟩]
  have hsub : (25 * 10 ^ d : Int) - 20 * 10 ^ d = Int.ofNat (5 * 10 ^ d) := by
    rw [Int.ofNat_eq_natCast]
    push_cast
    ring
  rw [hsub, formatUnits_five_pow]

/-- Claim C3 is false as stated: `computeMax` is not idempotent when the
asset is native-reserved and the usable amount still exceeds the reserve.
With balance 50, decimals 0 (reserve `20·10^0 = 20`) and the native flag
set, the first application yields `"30"`; converting `"30"` back to base
units (30) and recomputing yields `"10" ≠ "30"`. -/
theorem computeMax_not_idempotent_counterexample :
    computeMax 50 0 true = "30".data
      ∧ computeMax (Int.ofNat (parseUnits (computeMax 50 0 true) 0)) 0 true
          ≠ computeMax 50 0 true :=
  ⟨by decide, by decide⟩

/-- Claim C3 (amended): `computeMax` is idempotent under re-application
provided the reserve is not subtracted a second time — whenever the asset
is not native-reserved, or the first usable amount is at most the reserve,
converting the output back to base units at the same precision and
recomputing max yields the same result.  (As stated the claim is false:
for a native-reserved balance exceeding twice the reserve, the second
application subtracts the reserve again.) -/
theorem computeMax_idempotent_of_no_second_reserve (rawBalance : Int) (d : Nat)
    (isNativeReserved : Bool) (h0 : 0 ≤ rawBalance)
    (h : isNativeReserved = false
      ∨ maxUsable rawBalance (babySubAmount d) isNativeReserved ≤ babySubAmount d) :
    computeMax (Int.ofNat (parseUnits (computeMax rawBalance d isNativeReserved) d)) d
        isNativeReserved
      = computeMax rawBalance d isNativeReserved := by
  have hu0 : 0 ≤ maxUsable rawBalance (babySubAmount d) isNativeReserved :=
    maxUsable_nonneg _ _ _ h0
  have hparse : parseUnits (computeMax rawBalance d isNativeReserved) d
      = (maxUsable rawBalance (babySubAmount d) isNativeReserved).toNat := by
    unfold computeMax
    have h2 := parse_format_aux
      (maxUsable rawBalance (babySubAmount d) isNativeReserved).toNat d
    rw [Int.ofNat_eq_natCast, Int.toNat_of_nonneg hu0] at h2
    exact h2
  have hid : maxUsable (maxUsable rawBalance (babySubAmount d) isNativeReserved)
      (babySubAmount d) isNativeReserved
      = maxUsable rawBalance (babySubAmount d) isNativeReserved := by
    rcases h with hn | hle
    · subst hn
      simp [maxUsable]
    · have hgen : ∀ u : Int, u ≤ babySubAmount d →
          maxUsable u (babySubAmount d) isNativeReserved = u := by
        intro u hu
        unfold maxUsable
        rw [if_neg fun hc => absurd hc.2 (not_lt.mpr hu)]
      exact hgen _ hle
  rw [hparse]
  unfold computeMax
  rw [Int.ofNat_eq_natCast, Int.toNat_of_nonneg hu0, hid]

theorem computeMax_idempotent_witness :
    computeMax (Int.ofNat (parseUnits (computeMax 7 0 false) 0)) 0 false
      = computeMax 7 0 false :=
  computeMax_idempotent_of_no_second_reserve 7 0 false (by decide) (Or.inl rfl)

theorem formatUnits_zero_decimals (v : Int) (h0 : 0 ≤ v) :
    formatUnits v 0 = natToDec v.toNat := by
  have hin : intToDec v = natToDec v.toNat := by
    unfold intToDec
    rw [if_neg (not_lt.mpr h0)]
  have hneg : listStartsWith (natToDec v.toNat) ['-'] = false :=
    startsWithDash_false _ (natToDec_all_isDigit _)
  simp only [formatUnits, hin, hneg, Bool.false_eq_true, if_false, List.nil_append]
  have hpad : padStart (natToDec v.toNat) 0 '0' = natToDec v.toNat := by
    unfold padStart
    rw [Nat.zero_sub]
    rfl
  rw [hpad, Nat.sub_zero, List.take_length, List.drop_length]
  have hdz : dropTrailingZeros [] = [] := rfl
  rw [hdz]
  simp only [List.isEmpty_nil, if_true, List.append_nil]
  have hne : (natToDec v.toNat).isEmpty = false := by
    cases hx : (natToDec v.toNat).isEmpty
    · rfl
    · exact absurd (List.isEmpty_iff.mp hx) (natToDec_ne_nil _)
  rw [hne]
  simp

/-- Claim C10: when the selected token's metadata has no representation
entry (`representations[0]` or its `decimals` is absent), every consumer
treats the decimal precision as 0: the guard's `maxDecimals` pipe yields 0
(so any insertion producing a digit after a fractional separator is
rejected), and `setMaxAmount` and the balance display format at precision
0, producing whole-integer strings (every character a digit, no
separator). -/
theorem missing_representation_defaults (tok : Token)
    (hnone : tok.representations.head?.bind TokenRepresentation.decimals = none) :
    guardMaxDecimals (some tok) = 0
      ∧ assetDecimals tok = 0
      ∧ (∀ value data inputType,
          listStartsWith inputType ['d', 'e', 'l', 'e', 't', 'e'] = false →
          hasDigitAfterSep (value ++ Option.getD data []) = true →
          onbeforeinputHandler (some tok) value data inputType = false)
      ∧ (∀ (chain : Chain) (btb : BalanceRecord) (raw : Int) (amt : List Char),
          btb.balance = some raw → 0 ≤ raw →
          (displayBalance ⟨some chain, some tok, some btb, amt⟩).all Char.isDigit = true)
      ∧ (∀ (chain : Chain) (btb : BalanceRecord) (raw : Int) (amt : List Char),
          btb.balance = some raw → 0 ≤ raw →
          ((setMaxAmount ⟨some chain, some tok, some btb, amt⟩).amount).all Char.isDigit
            = true) := by
  have hg : guardMaxDecimals (some tok) = 0 := by
    unfold guardMaxDecimals
    rw [Option.some_bind, hnone]
    rfl
  have ha : assetDecimals tok = 0 := by
    unfold assetDecimals
    rw [hnone]
    rfl
  refine ⟨hg, ha, ?_, ?_, ?_⟩
  · intro value data inputType hdel hdig
    unfold onbeforeinputHandler
    rw [hg]
    exact guard_reject_digit_after_sep value data inputType hdel hdig
  · intro chain btb raw amt hb h0
    unfold displayBalance
    simp only [hb, ha]
    rw [formatUnits_zero_decimals raw h0, List.all_eq_true]
    intro c hc
    exact natToDec_all_isDigit _ c hc
  · intro chain btb raw amt hb h0
    unfold setMaxAmount
    simp only [hb, ha]
    unfold computeMax
    rw [formatUnits_zero_decimals _ (maxUsable_nonneg _ _ _ h0), List.all_eq_true]
    intro c hc
    exact natToDec_all_isDigit _ c hc

theorem missing_representation_defaults_witness :
    guardMaxDecimals (some ⟨"d", []⟩) = 0
      ∧ onbeforeinputHandler (some ⟨"d", []⟩) "1".data (some ".2".data)
          "insertText".data = false
      ∧ (displayBalance ⟨some ⟨"c"⟩, some ⟨"d", []⟩, some ⟨some 7⟩, []⟩).all
          Char.isDigit = true
      ∧ ((setMaxAmount ⟨some ⟨"c"⟩, some ⟨"d", []⟩, some ⟨some 7⟩, []⟩).amount).all
          Char.isDigit = true :=
  ⟨(missing_representation_defaults ⟨"d", []⟩ rfl).1,
   (missing_representation_defaults ⟨"d", []⟩ rfl).2.2.1 "1".data (some ".2".data)
     "insertText".data (by decide) (by decide),
   (missing_representation_defaults ⟨"d", []⟩ rfl).2.2.2.1 ⟨"c"⟩ ⟨some 7⟩ 7 [] rfl
     (by decide),
   (missing_representation_defaults ⟨"d", []⟩ rfl).2.2.2.2 ⟨"c"⟩ ⟨some 7⟩ 7 [] rfl
     (by decide)⟩
